import Mathlib

/-!
Verification of the experiment-orchestration repository (config.py, phase.py,
experiment.py, loop_unroller.py) against its natural-language specification.

The Python sources are shallowly embedded: pure functions become Lean
functions, the stateful scheduler becomes explicit state passing, Python's
unbounded loops and recursion are given an explicit fuel parameter that is
proven sufficient, and fallible code returns `Except`/`Option`.
-/

/-- Exception types of the Python runtime that the embedded code raises or
catches.  A closed enumeration is enough: each constructor stands for one
Python exception class that appears in the sources. -/
inductive PyExc where
  | keyError
  | attributeError
  | assertionError
  | valueError
  | typeError
  | runtimeError
  | picklingError
  | userWarning
  | recursionError
  | otherExc
deriving DecidableEq, Repr

/-! ## loop_unroller.py — the Unroller

`Unroller._unroll` is a Python generator over a list of (variable, domain)
pairs.  Its per-dimension state is the triple (domain, iterator position,
current value): `loop_iter[i]` is an iterator over `loops[i][1]` whose next
element has index `pos`, and `loop_vals[i]` is the value most recently
produced.  The generator's cursor `cur` walks from the innermost (last)
dimension outward, so the machine state is kept as a list of triples with the
innermost dimension first (the reverse of declaration order). -/

/-- Per-dimension state of the `_unroll` generator: the domain being iterated
(`loops[cur][1]`), the position of the iterator `loop_iter[cur]` (index of the
element its next `.next()` call returns), and the current value
`loop_vals[cur]`. -/
abbrev Triple (α : Type) := List α × Nat × α

/-- One advance of the `_unroll` generator, operating on the dimension states
listed innermost-first.  Translates the body of the `while cur >= 0` loop of
`Unroller._unroll`: try `loop_iter[cur].next()` on the innermost dimension;
on `StopIteration` reset that dimension (`iter(loops[cur][1])` followed by
`.next()`, giving position 1 and the first value) and carry the increment to
the next-outer dimension.  `none` models the carry rippling past the
outermost dimension (`raise StopIteration`), which terminates the generator;
it also covers the impossible-here reset of an empty domain, whose
`StopIteration` would likewise terminate the generator. -/
def advanceAux {α : Type} : List (Triple α) → Option (List (Triple α))
  | [] => none
  | (d, p, _) :: rest =>
    match d[p]? with
    | some w => some ((d, p + 1, w) :: rest)
    | none =>
      match d[0]? with
      | some w0 => (advanceAux rest).map (fun r => (d, 1, w0) :: r)
      | none => none

/-- The tuple of current values `loop_vals` read off the machine state
(still innermost-first). -/
def stVals {α : Type} (st : List (Triple α)) : List α :=
  st.map (fun t => t.2.2)

/-- The setup loop of `_unroll`: for each dimension in declaration order,
build a fresh iterator and draw its first element
(`loop_iter.append(iter(loop[1])); loop_vals.append(loop_iter[-1].next())`).
If some domain is empty, that first `.next()` raises `StopIteration`, which
terminates the generator before anything is yielded: modeled by `none`. -/
def unrollInit {α : Type} : List (List α) → Option (List (Triple α))
  | [] => some []
  | d :: ds =>
    match d[0]? with
    | none => none
    | some v => (unrollInit ds).map (fun r => (d, 1, v) :: r)

/-- The main `while cur >= 0` loop of `_unroll`, producing the value tuples of
every yield after the first.  The Python loop is unbounded; `fuel` bounds the
number of iterations and is instantiated with a proven-sufficient value. -/
def unrollLoop {α : Type} : Nat → List (Triple α) → List (List α)
  | 0, _ => []
  | fuel + 1, st =>
    match advanceAux st with
    | none => []
    | some st2 => stVals st2 :: unrollLoop fuel st2

/-- The `total` computed eagerly by `Unroller.__init__`:
`self.total = 1`, then `self.total *= len(l[1])` for every loop. -/
def unrollerTotal {α : Type} (loops : List (String × List α)) : Nat :=
  loops.foldl (fun t l => t * l.2.length) 1

/-- Value tuples yielded by `Unroller._unroll`, in yield order and in
declaration order within each tuple: the unconditional first
`yield Config(zip(loop_vars, loop_vals))` followed by the yields of the main
loop.  The machine state is kept innermost-first, so tuples are reversed back
to declaration order. -/
def unrollVals {α : Type} (doms : List (List α)) : List (List α) :=
  match unrollInit doms with
  | none => []
  | some fwd =>
    (stVals fwd.reverse :: unrollLoop ((doms.map List.length).prod) fwd.reverse).map
      List.reverse

/-- Assignments yielded by iterating an `Unroller` built from `loops`:
each yield is `Config(zip(loop_vars, loop_vals))`, the declaration-ordered
list of (variable, value) pairs. -/
def unroller {α : Type} (loops : List (String × List α)) : List (List (String × α)) :=
  (unrollVals (loops.map Prod.snd)).map (fun c => (loops.map Prod.fst).zip c)

/-- The `Unroller` object: it stores the loops and the eagerly computed
`total`; `__len__` returns `self.total`. -/
structure Unroller (α : Type) where
  loops : List (String × List α)
  total : Nat

/-- `Unroller.__init__`: store the loops and compute `self.total` eagerly. -/
def mkUnroller {α : Type} (loops : List (String × List α)) : Unroller α :=
  ⟨loops, unrollerTotal loops⟩

/-- `Unroller.__len__` returns the eagerly computed `self.total`. -/
def unrollerLen {α : Type} (u : Unroller α) : Nat := u.total

/-- `Unroller.__iter__` returns `self._unroll()`: a fresh generator built
from `self.loops`; the `Unroller` object itself is not mutated.  The pair is
(sequence produced by fully consuming that fresh generator, object after the
call). -/
def unrollerIter {α : Type} (u : Unroller α) :
    List (List (String × α)) × Unroller α :=
  (unroller u.loops, u)

/-- `k` successive full traversals of the same `Unroller` instance, each via a
fresh `__iter__` call, threading the object state through. -/
def unrollerTraversals {α : Type} (u : Unroller α) : Nat → List (List (List (String × α)))
  | 0 => []
  | k + 1 =>
    let (out, u2) := unrollerIter u
    out :: unrollerTraversals u2 k

/-- Spec-side definition (for comparison with the source-derived `unrollVals`):
the Cartesian product of the domains enumerated as nested loops in declaration
order, so the last domain advances fastest. -/
def cartProd {α : Type} : List (List α) → List (List α)
  | [] => [[]]
  | d :: ds => d.flatMap (fun v => (cartProd ds).map (fun c => v :: c))

/-- Spec-side definition: the assignment mappings produced by nested loops in
declaration order, each an ordered list of (variable, value) pairs. -/
def cartAssignments {α : Type} : List (String × List α) → List (List (String × α))
  | [] => [[]]
  | (x, d) :: rest =>
    d.flatMap (fun v => (cartAssignments rest).map (fun c => (x, v) :: c))

/-- Cartesian product over the reversed (innermost-first) domain list,
producing innermost-first tuples; proof-internal companion of `cartProd`. -/
def cartR {α : Type} : List (List α) → List (List α)
  | [] => [[]]
  | d :: ds => (cartR ds).flatMap (fun c => d.map (fun v => v :: c))

/-- Validity of one dimension state: the position is between 1 and the domain
length and the current value is the element just consumed. -/
def ValidT {α : Type} : Triple α → Prop
  | (d, p, v) => 1 ≤ p ∧ p ≤ d.length ∧ d[p - 1]? = some v

/-- Validity of a whole machine state. -/
def ValidSt {α : Type} (st : List (Triple α)) : Prop :=
  ∀ t ∈ st, ValidT t

/-- The combinations still to be yielded from a machine state (current one
included), innermost-first; proof-internal. -/
def expStream {α : Type} : List (Triple α) → List (List α)
  | [] => [[]]
  | (d, p, _) :: rest =>
    match expStream rest with
    | [] => []
    | c :: cs =>
      (d.drop (p - 1)).map (fun v => v :: c) ++
        cs.flatMap (fun c2 => d.map (fun v => v :: c2))

/-- Number of advances the generator will still perform from a state;
proof-internal fuel measure. -/
def remSt {α : Type} : List (Triple α) → Nat
  | [] => 0
  | (d, p, _) :: rest => (d.length - p) + d.length * remSt rest

/-- Helper: dropping just before a present element exposes it. -/
theorem drop_pred_eq_cons {α : Type} (d : List α) (p : Nat) (v : α)
    (h1 : 1 ≤ p) (hv : d[p - 1]? = some v) :
    d.drop (p - 1) = v :: d.drop p := by
  obtain ⟨hlt, hget⟩ := List.getElem?_eq_some.mp hv
  have hp : p - 1 + 1 = p := by omega
  rw [List.drop_eq_getElem_cons hlt, hget, hp]

/-- Helper: summing a constant over a list. -/
theorem sum_map_const {α : Type} (l : List α) (k : Nat) :
    (l.map (fun _ => k)).sum = l.length * k := by
  induction l with
  | nil => simp
  | cons x xs ih => simp [ih, Nat.succ_mul, Nat.add_comm]

/-- Under validity, the head of the expected stream is the current value
tuple. -/
theorem expStream_head {α : Type} :
    ∀ st : List (Triple α), ValidSt st → ∃ cs, expStream st = stVals st :: cs := by
  intro st
  induction st with
  | nil => intro _; exact ⟨[], rfl⟩
  | cons t rest ih =>
    intro h
    obtain ⟨d, p, v⟩ := t
    have ht : ValidT (d, p, v) := h _ (List.mem_cons_self _ _)
    obtain ⟨h1, h2, h3⟩ := ht
    have hrest : ValidSt rest := fun t htm => h t (List.mem_cons_of_mem _ htm)
    obtain ⟨cs, hcs⟩ := ih hrest
    have hdrop : d.drop (p - 1) = v :: d.drop p := drop_pred_eq_cons d p v h1 h3
    refine ⟨(d.drop p).map (fun w => w :: stVals rest) ++
      cs.flatMap (fun c2 => d.map (fun w => w :: c2)), ?_⟩
    simp [expStream, hcs, hdrop, stVals]

/-- Advancing preserves state validity. -/
theorem advance_valid {α : Type} :
    ∀ st st' : List (Triple α), ValidSt st → advanceAux st = some st' → ValidSt st' := by
  intro st
  induction st with
  | nil => intro st' _ h; simp [advanceAux] at h
  | cons t rest ih =>
    intro st' h hadv
    obtain ⟨d, p, v⟩ := t
    obtain ⟨h1, h2, h3⟩ := h _ (List.mem_cons_self _ _)
    have hrest : ValidSt rest := fun t htm => h t (List.mem_cons_of_mem _ htm)
    cases hdp : d[p]? with
    | some w =>
      simp only [advanceAux, hdp, Option.some.injEq] at hadv
      subst hadv
      intro t htm
      rcases List.mem_cons.mp htm with heq | hmem
      · subst heq
        refine ⟨by omega, ?_, ?_⟩
        · have := (List.getElem?_eq_some.mp hdp).1; omega
        · simpa using hdp
      · exact hrest t hmem
    | none =>
      cases hd0 : d[0]? with
      | none =>
        simp only [advanceAux, hdp, hd0] at hadv
        exact Option.noConfusion hadv
      | some w0 =>
        cases hra : advanceAux rest with
        | none =>
          simp only [advanceAux, hdp, hd0, hra, Option.map_none'] at hadv
          exact Option.noConfusion hadv
        | some rest' =>
          simp only [advanceAux, hdp, hd0, hra, Option.map_some', Option.some.injEq] at hadv
          subst hadv
          intro t htm
          rcases List.mem_cons.mp htm with heq | hmem
          · subst heq
            refine ⟨le_refl 1, ?_, by simpa using hd0⟩
            have := (List.getElem?_eq_some.mp hd0).1; omega
          · exact ih rest' hrest hra t hmem

/-- When no advance is possible, the expected stream is a singleton. -/
theorem advance_none {α : Type} :
    ∀ st : List (Triple α), ValidSt st → advanceAux st = none →
      expStream st = [stVals st] := by
  intro st
  induction st with
  | nil => intro _ _; rfl
  | cons t rest ih =>
    intro h hadv
    obtain ⟨d, p, v⟩ := t
    obtain ⟨h1, h2, h3⟩ := h _ (List.mem_cons_self _ _)
    have hrest : ValidSt rest := fun t htm => h t (List.mem_cons_of_mem _ htm)
    have hex0 : ∃ w0, d[0]? = some w0 := by
      have h0lt : 0 < d.length := by omega
      exact ⟨_, List.getElem?_eq_getElem h0lt⟩
    obtain ⟨w0, hd0⟩ := hex0
    cases hdp : d[p]? with
    | some w =>
      simp only [advanceAux, hdp] at hadv
      exact Option.noConfusion hadv
    | none =>
      cases hra : advanceAux rest with
      | some r =>
        simp only [advanceAux, hdp, hd0, hra, Option.map_some'] at hadv
        exact Option.noConfusion hadv
      | none =>
        have hrest_eq : expStream rest = [stVals rest] := ih hrest hra
        have hp : p = d.length := by
          have hnlt : ¬ p < d.length := by
            intro hlt
            rw [List.getElem?_eq_getElem hlt] at hdp
            exact Option.noConfusion hdp
          omega
        have hdropp : d.drop p = [] := by
          rw [hp]; exact List.drop_length d
        have hdrop : d.drop (p - 1) = [v] := by
          rw [drop_pred_eq_cons d p v h1 h3, hdropp]
        simp [expStream, hrest_eq, hdrop, stVals]

/-- One advance steps the expected stream forward by one element. -/
theorem advance_some {α : Type} :
    ∀ st st' : List (Triple α), ValidSt st → advanceAux st = some st' →
      expStream st = stVals st :: expStream st' := by
  intro st
  induction st with
  | nil => intro st' _ h; simp [advanceAux] at h
  | cons t rest ih =>
    intro st' h hadv
    obtain ⟨d, p, v⟩ := t
    obtain ⟨h1, h2, h3⟩ := h _ (List.mem_cons_self _ _)
    have hrest : ValidSt rest := fun t htm => h t (List.mem_cons_of_mem _ htm)
    obtain ⟨cs, hcs⟩ := expStream_head rest hrest
    have hdrop : d.drop (p - 1) = v :: d.drop p := drop_pred_eq_cons d p v h1 h3
    cases hdp : d[p]? with
    | some w =>
      simp only [advanceAux, hdp, Option.some.injEq] at hadv
      subst hadv
      simp [expStream, hcs, hdrop, stVals]
    | none =>
      cases hd0 : d[0]? with
      | none =>
        simp only [advanceAux, hdp, hd0] at hadv
        exact Option.noConfusion hadv
      | some w0 =>
        cases hra : advanceAux rest with
        | none =>
          simp only [advanceAux, hdp, hd0, hra, Option.map_none'] at hadv
          exact Option.noConfusion hadv
        | some rest' =>
          simp only [advanceAux, hdp, hd0, hra, Option.map_some', Option.some.injEq] at hadv
          subst hadv
          have hrest' : ValidSt rest' := advance_valid rest rest' hrest hra
          obtain ⟨cs', hcs'⟩ := expStream_head rest' hrest'
          have hstep : expStream rest = stVals rest :: expStream rest' :=
            ih rest' hrest hra
          have hp : p = d.length := by
            have hnlt : ¬ p < d.length := by
              intro hlt
              rw [List.getElem?_eq_getElem hlt] at hdp
              exact Option.noConfusion hdp
            omega
          have hdropp : d.drop p = [] := by rw [hp]; exact List.drop_length d
          have hdrop1 : d.drop (p - 1) = [v] := by rw [hdrop, hdropp]
          simp [expStream, hstep, hcs', hdrop1, stVals]

/-- Length of the expected stream in terms of the fuel measure. -/
theorem expStream_length {α : Type} :
    ∀ st : List (Triple α), ValidSt st → (expStream st).length = remSt st + 1 := by
  intro st
  induction st with
  | nil => intro _; rfl
  | cons t rest ih =>
    intro h
    obtain ⟨d, p, v⟩ := t
    obtain ⟨h1, h2, h3⟩ := h _ (List.mem_cons_self _ _)
    have hrest : ValidSt rest := fun t htm => h t (List.mem_cons_of_mem _ htm)
    obtain ⟨cs, hcs⟩ := expStream_head rest hrest
    have hlen : (expStream rest).length = remSt rest + 1 := ih hrest
    rw [hcs] at hlen
    have hcslen : cs.length = remSt rest := by simp at hlen; omega
    have hflat : (cs.flatMap (fun c2 => d.map (fun w => w :: c2))).length
        = cs.length * d.length := by
      rw [List.length_flatMap]
      have hmap : (List.map (List.length ∘ fun c2 => d.map (fun w => w :: c2)) cs)
          = cs.map (fun _ => d.length) := by
        apply List.map_congr_left
        intro c2 _
        simp [Function.comp]
      rw [hmap, sum_map_const]
    simp only [expStream, hcs, remSt, List.length_append, List.length_map,
      List.length_drop, hflat, hcslen]
    generalize remSt rest = k at *
    generalize hq : d.length = q at *
    have : k * q = q * k := Nat.mul_comm k q
    omega

/-- The main loop, given enough fuel, produces exactly the expected stream
(current values first). -/
theorem unrollLoop_eq {α : Type} :
    ∀ (fuel : Nat) (st : List (Triple α)), ValidSt st → remSt st ≤ fuel →
      stVals st :: unrollLoop fuel st = expStream st := by
  intro fuel
  induction fuel with
  | zero =>
    intro st h hrem
    obtain ⟨cs, hcs⟩ := expStream_head st h
    have hlen := expStream_length st h
    rw [hcs] at hlen
    simp at hlen
    have : cs = [] := by
      apply List.eq_nil_of_length_eq_zero
      omega
    simp only [unrollLoop]
    rw [hcs, this]
  | succ fuel ih =>
    intro st h hrem
    cases hadv : advanceAux st with
    | none =>
      simp only [unrollLoop, hadv]
      rw [advance_none st h hadv]
    | some st' =>
      simp only [unrollLoop, hadv]
      have h' : ValidSt st' := advance_valid st st' h hadv
      have hstep := advance_some st st' h hadv
      have hl := expStream_length st h
      have hl' := expStream_length st' h'
      rw [hstep] at hl
      simp only [List.length_cons] at hl
      have hrem' : remSt st' ≤ fuel := by omega
      rw [ih st' h' hrem', hstep]

/-- `unrollInit` distributes over list append. -/
theorem unrollInit_append {α : Type} :
    ∀ l1 l2 : List (List α),
      unrollInit (l1 ++ l2) =
        (unrollInit l1).bind (fun r1 => (unrollInit l2).map (fun r2 => r1 ++ r2)) := by
  intro l1 l2
  induction l1 with
  | nil =>
    cases h2 : unrollInit l2 <;> simp [unrollInit, h2]
  | cons d ds ih =>
    cases hd0 : d[0]? with
    | none => simp [unrollInit, hd0]
    | some v =>
      have hstep : unrollInit ((d :: ds) ++ l2) =
          (unrollInit (ds ++ l2)).map (fun r => (d, 1, v) :: r) := by
        simp [unrollInit, hd0]
      rw [hstep, ih]
      cases hds : unrollInit ds <;> cases h2 : unrollInit l2 <;>
        simp [unrollInit, hd0, hds, h2]

/-- `unrollInit` on the reversed domain list gives the reversed state. -/
theorem unrollInit_reverse {α : Type} :
    ∀ (l : List (List α)) (r : List (Triple α)),
      unrollInit l = some r → unrollInit l.reverse = some r.reverse := by
  intro l
  induction l with
  | nil =>
    intro r h
    simp only [unrollInit, Option.some.injEq] at h
    subst h
    rfl
  | cons d ds ih =>
    intro r h
    cases hd0 : d[0]? with
    | none =>
      simp only [unrollInit, hd0] at h
      exact Option.noConfusion h
    | some v =>
      simp only [unrollInit, hd0] at h
      cases hds : unrollInit ds with
      | none => rw [hds] at h; simp at h
      | some r' =>
        rw [hds] at h
        simp only [Option.map_some', Option.some.injEq] at h
        subst h
        have ihr := ih r' hds
        rw [List.reverse_cons, unrollInit_append, ihr]
        simp [unrollInit, hd0]

/-- A successful setup produces a valid machine state. -/
theorem unrollInit_valid {α : Type} :
    ∀ (l : List (List α)) (st : List (Triple α)),
      unrollInit l = some st → ValidSt st := by
  intro l
  induction l with
  | nil =>
    intro st h
    simp only [unrollInit, Option.some.injEq] at h
    subst h
    intro t htm
    simp at htm
  | cons d ds ih =>
    intro st h
    cases hd0 : d[0]? with
    | none =>
      simp only [unrollInit, hd0] at h
      exact Option.noConfusion h
    | some v =>
      simp only [unrollInit, hd0] at h
      cases hds : unrollInit ds with
      | none => rw [hds] at h; simp at h
      | some r' =>
        rw [hds] at h
        simp only [Option.map_some', Option.some.injEq] at h
        subst h
        intro t htm
        rcases List.mem_cons.mp htm with heq | hmem
        · subst heq
          refine ⟨le_refl 1, ?_, by simpa using hd0⟩
          have := (List.getElem?_eq_some.mp hd0).1; omega
        · exact ih r' hds t hmem

/-- A successful setup's expected stream is the (innermost-first) Cartesian
product of its domain list. -/
theorem unrollInit_expStream {α : Type} :
    ∀ (l : List (List α)) (st : List (Triple α)),
      unrollInit l = some st → expStream st = cartR l := by
  intro l
  induction l with
  | nil =>
    intro st h
    simp only [unrollInit, Option.some.injEq] at h
    subst h
    rfl
  | cons d ds ih =>
    intro st h
    cases hd0 : d[0]? with
    | none =>
      simp only [unrollInit, hd0] at h
      exact Option.noConfusion h
    | some v =>
      simp only [unrollInit, hd0] at h
      cases hds : unrollInit ds with
      | none => rw [hds] at h; simp at h
      | some r' =>
        rw [hds] at h
        simp only [Option.map_some', Option.some.injEq] at h
        subst h
        have hv : ValidSt r' := unrollInit_valid ds r' hds
        obtain ⟨cs, hcs⟩ := expStream_head r' hv
        have hexp : expStream r' = cartR ds := ih r' hds
        simp only [expStream, hcs, cartR, ← hexp, hcs, List.flatMap_cons]
        simp

/-- A failed setup means some domain is empty. -/
theorem unrollInit_none {α : Type} :
    ∀ l : List (List α), unrollInit l = none → ∃ d ∈ l, d = [] := by
  intro l
  induction l with
  | nil => intro h; simp [unrollInit] at h
  | cons d ds ih =>
    intro h
    cases hd0 : d[0]? with
    | none =>
      refine ⟨d, List.mem_cons_self _ _, ?_⟩
      cases d with
      | nil => rfl
      | cons a l2 => simp at hd0
    | some v =>
      simp only [unrollInit, hd0] at h
      cases hds : unrollInit ds with
      | none =>
        obtain ⟨e, he, hnil⟩ := ih hds
        exact ⟨e, List.mem_cons_of_mem _ he, hnil⟩
      | some r' => rw [hds] at h; simp at h

/-- Helper: flat-mapping to singletons is mapping. -/
theorem flatMap_single {α β : Type} (l : List α) (f : α → β) :
    l.flatMap (fun v => [f v]) = l.map f := by
  induction l with
  | nil => rfl
  | cons x xs ih => simp [ih]

/-- Appending an outermost dimension to the innermost-first product. -/
theorem cartR_snoc {α : Type} :
    ∀ (rds : List (List α)) (d : List α),
      cartR (rds ++ [d]) = d.flatMap (fun v => (cartR rds).map (fun c => c ++ [v])) := by
  intro rds
  induction rds with
  | nil =>
    intro d
    have h1 : cartR ([] ++ [d]) = d.map (fun v => [v]) := by
      simp [cartR]
    rw [h1, ← flatMap_single d (fun v => [v])]
    rfl
  | cons e rs ih =>
    intro d
    rw [List.cons_append]
    have hunfold : cartR (e :: (rs ++ [d])) =
        (cartR (rs ++ [d])).flatMap (fun c => e.map (fun v => v :: c)) := rfl
    have hrhs : cartR (e :: rs) = (cartR rs).flatMap (fun c => e.map (fun v => v :: c)) := rfl
    rw [hunfold, ih d, List.flatMap_assoc, hrhs]
    congr 1
    funext v
    simp [List.flatMap_map, List.map_flatMap, List.map_map, Function.comp_def]

/-- The declaration-order product is the reversed innermost-first product. -/
theorem cartProd_eq_cartR {α : Type} :
    ∀ ds : List (List α), cartProd ds = (cartR ds.reverse).map List.reverse := by
  intro ds
  induction ds with
  | nil => rfl
  | cons d rest ih =>
    simp only [cartProd, ih, List.reverse_cons, cartR_snoc, List.map_flatMap,
      List.map_map]
    congr 1
    funext v
    apply List.map_congr_left
    intro c _
    simp

/-- Length of the innermost-first product. -/
theorem cartR_length {α : Type} :
    ∀ rds : List (List α), (cartR rds).length = (rds.map List.length).prod := by
  intro rds
  induction rds with
  | nil => rfl
  | cons d rs ih =>
    simp only [cartR, List.length_flatMap, List.map_cons, List.prod_cons]
    have hmap : (List.map (List.length ∘ fun c => d.map (fun v => v :: c)) (cartR rs))
        = (cartR rs).map (fun _ => d.length) := by
      apply List.map_congr_left
      intro c _
      simp [Function.comp]
    rw [hmap, sum_map_const, ih, Nat.mul_comm]

/-- Length of the declaration-order product. -/
theorem cartProd_length {α : Type} (ds : List (List α)) :
    (cartProd ds).length = (ds.map List.length).prod := by
  rw [cartProd_eq_cartR, List.length_map, cartR_length, List.map_reverse,
    List.prod_reverse]

/-- An empty domain annihilates the declaration-order product. -/
theorem cartProd_of_mem_nil {α : Type} :
    ∀ ds : List (List α), [] ∈ ds → cartProd ds = [] := by
  intro ds
  induction ds with
  | nil => intro h; simp at h
  | cons d rs ih =>
    intro h
    rcases List.mem_cons.mp h with heq | hmem
    · subst heq; rfl
    · simp [cartProd, ih hmem]

/-- Main correctness of the generator: the sequence of value tuples yielded by
`Unroller._unroll` is exactly the declaration-order Cartesian product of the
domains (last domain fastest), for every domain list. -/
theorem unrollVals_eq_cartProd {α : Type} (doms : List (List α)) :
    unrollVals doms = cartProd doms := by
  cases hinit : unrollInit doms with
  | none =>
    obtain ⟨d, hmem, hnil⟩ := unrollInit_none doms hinit
    subst hnil
    rw [unrollVals, hinit, cartProd_of_mem_nil doms hmem]
  | some fwd =>
    have hrev : unrollInit doms.reverse = some fwd.reverse :=
      unrollInit_reverse doms fwd hinit
    have hvalid : ValidSt fwd.reverse := unrollInit_valid doms.reverse _ hrev
    have hexp : expStream fwd.reverse = cartR doms.reverse :=
      unrollInit_expStream doms.reverse _ hrev
    have hlen : (expStream fwd.reverse).length = remSt fwd.reverse + 1 :=
      expStream_length _ hvalid
    have hprodlen : (cartR doms.reverse).length = (doms.map List.length).prod := by
      rw [cartR_length, List.map_reverse, List.prod_reverse]
    have hrem : remSt fwd.reverse ≤ (doms.map List.length).prod := by
      rw [hexp, hprodlen] at hlen
      omega
    have hmain := unrollLoop_eq ((doms.map List.length).prod) fwd.reverse hvalid hrem
    simp only [unrollVals, hinit]
    rw [hmain, hexp, cartProd_eq_cartR]

/-- Every tuple of the product has one value per dimension. -/
theorem mem_cartProd_length {α : Type} :
    ∀ (ds : List (List α)) (c : List α), c ∈ cartProd ds → c.length = ds.length := by
  intro ds
  induction ds with
  | nil =>
    intro c h
    simp only [cartProd, List.mem_singleton] at h
    subst h; rfl
  | cons d rs ih =>
    intro c h
    simp only [cartProd, List.mem_flatMap, List.mem_map] at h
    obtain ⟨v, _, c2, hc2, heq⟩ := h
    subst heq
    simp [ih c2 hc2]

/-- If every domain has pairwise-distinct values, the product tuples are
pairwise distinct. -/
theorem cartProd_nodup {α : Type} :
    ∀ ds : List (List α), (∀ d ∈ ds, d.Nodup) → (cartProd ds).Nodup := by
  intro ds
  induction ds with
  | nil => intro _; simp [cartProd]
  | cons d rs ih =>
    intro h
    have hd : d.Nodup := h d (List.mem_cons_self _ _)
    have hrs : (cartProd rs).Nodup := ih (fun e he => h e (List.mem_cons_of_mem _ he))
    simp only [cartProd]
    rw [List.nodup_flatMap]
    constructor
    · intro v _
      exact hrs.map (fun a b hab => by injection hab)
    · have hdisj : ∀ a b : α, a ≠ b →
          ((cartProd rs).map (fun c => a :: c)).Disjoint
            ((cartProd rs).map (fun c => b :: c)) := by
        intro a b hne x hxa hxb
        obtain ⟨c1, _, hc1⟩ := List.mem_map.mp hxa
        obtain ⟨c2, _, hc2⟩ := List.mem_map.mp hxb
        rw [← hc1] at hc2
        injection hc2 with h1 _
        exact hne h1.symm
      exact List.Pairwise.imp (fun hab => hdisj _ _ hab) hd

/-- The eagerly computed total is the product of domain lengths. -/
theorem unrollerTotal_eq_prod {α : Type} (loops : List (String × List α)) :
    unrollerTotal loops = ((loops.map Prod.snd).map List.length).prod := by
  have haux : ∀ (l : List (String × List α)) (a : Nat),
      l.foldl (fun t x => t * x.2.length) a = a * ((l.map Prod.snd).map List.length).prod := by
    intro l
    induction l with
    | nil => intro a; simp
    | cons x xs ih =>
      intro a
      simp only [List.foldl_cons, List.map_cons, List.prod_cons, ih, Nat.mul_assoc]
  have := haux loops 1
  simpa [unrollerTotal] using this

/-- The nested-loop assignment enumeration is the value-tuple enumeration
zipped with the variable names. -/
theorem cartAssignments_eq_zip {α : Type} :
    ∀ loops : List (String × List α),
      cartAssignments loops =
        (cartProd (loops.map Prod.snd)).map (fun c => (loops.map Prod.fst).zip c) := by
  intro loops
  induction loops with
  | nil => rfl
  | cons p rest ih =>
    obtain ⟨x, d⟩ := p
    simp only [cartAssignments, ih, List.map_cons, cartProd, List.map_flatMap,
      List.map_map]
    congr 1

/-- Refinement: the assignment sequence produced by the source-derived
`Unroller` embedding equals the spec-side nested-loop enumeration. -/
theorem unroller_eq_cartAssignments {α : Type} (loops : List (String × List α)) :
    unroller loops = cartAssignments loops := by
  rw [unroller, unrollVals_eq_cartProd, cartAssignments_eq_zip]

/-- `zip` with a fixed name list is injective on value lists of matching
length. -/
theorem zip_inj {α : Type} :
    ∀ (xs : List String) (a b : List α), a.length = xs.length → b.length = xs.length →
      xs.zip a = xs.zip b → a = b := by
  intro xs
  induction xs with
  | nil =>
    intro a b ha hb _
    cases a with
    | nil =>
      cases b with
      | nil => rfl
      | cons y ys => simp at hb
    | cons x2 as => simp at ha
  | cons x xs ih =>
    intro a b ha hb hz
    cases a with
    | nil => simp at ha
    | cons va as =>
      cases b with
      | nil => simp at hb
      | cons vb bs =>
        simp only [List.zip_cons_cons, List.cons.injEq, Prod.mk.injEq] at hz
        obtain ⟨⟨_, hv⟩, hrest⟩ := hz
        simp only [List.length_cons] at ha hb
        rw [hv, ih as bs (by omega) (by omega) hrest]

/-- The number of assignments equals the product of domain lengths. -/
theorem unroller_length {α : Type} (loops : List (String × List α)) :
    (unroller loops).length = (loops.map (fun p => p.2.length)).prod := by
  rw [unroller, List.length_map, unrollVals_eq_cartProd, cartProd_length,
    List.map_map]
  rfl

/-- If every domain has pairwise-distinct values, the assignments are
pairwise distinct. -/
theorem unroller_nodup {α : Type} (loops : List (String × List α))
    (h : ∀ p ∈ loops, p.2.Nodup) : (unroller loops).Nodup := by
  rw [unroller, unrollVals_eq_cartProd]
  have hnd : (cartProd (loops.map Prod.snd)).Nodup := by
    apply cartProd_nodup
    intro d hd
    obtain ⟨p, hp, hpd⟩ := List.mem_map.mp hd
    subst hpd
    exact h p hp
  apply List.Nodup.map_on ?inj hnd
  intro c1 hc1 c2 hc2 heq
  have hl1 : c1.length = (loops.map Prod.fst).length := by
    rw [mem_cartProd_length _ _ hc1]; simp
  have hl2 : c2.length = (loops.map Prod.fst).length := by
    rw [mem_cartProd_length _ _ hc2]; simp
  exact zip_inj (loops.map Prod.fst) c1 c2 hl1 hl2 heq

/-- Sanity check against the repository's own `test_3_loops`: the embedded
Unroller reproduces the twelve expected rows in the expected order. -/
theorem unroller_matches_source_test :
    unroller [("i", [0, 1]), ("j", [0, 1, 2]), ("k", [0, 1])] =
      [[("i", 0), ("j", 0), ("k", 0)], [("i", 0), ("j", 0), ("k", 1)],
       [("i", 0), ("j", 1), ("k", 0)], [("i", 0), ("j", 1), ("k", 1)],
       [("i", 0), ("j", 2), ("k", 0)], [("i", 0), ("j", 2), ("k", 1)],
       [("i", 1), ("j", 0), ("k", 0)], [("i", 1), ("j", 0), ("k", 1)],
       [("i", 1), ("j", 1), ("k", 0)], [("i", 1), ("j", 1), ("k", 1)],
       [("i", 1), ("j", 2), ("k", 0)], [("i", 1), ("j", 2), ("k", 1)]] := by
  rfl

/-- Sanity check against the repository's own `test_0_loop`: an empty domain
yields no combinations, and `len` of a concrete two-loop Unroller is 6. -/
theorem unroller_matches_source_edge_tests :
    unroller [("i", ([] : List Nat))] = [] ∧
    unrollerLen (mkUnroller [("i", [0, 1]), ("j", ([0, 1, 2] : List Nat))]) = 6 := by
  exact ⟨rfl, rfl⟩

/-- C1 counterexample: for the sweep specification x ∈ [0, 0] (a domain with a
repeated value, all dimensions of non-zero length) the Unroller yields the
assignment mapping x ↦ 0 twice, so the yields are not pairwise distinct,
contradicting the claim that each combination is a distinct assignment
mapping. -/
theorem c1_duplicate_values_not_distinct :
    unroller [("x", ([0, 0] : List Nat))] = [[("x", 0)], [("x", 0)]] ∧
    ¬ (unroller [("x", ([0, 0] : List Nat))]).Nodup := by
  exact ⟨rfl, by decide⟩

/-- C1 (amended): for every sweep specification with finitely many dimensions,
all of non-zero length, iterating the Unroller yields exactly the product of
the domain lengths of combinations, enumerating the Cartesian product in
mixed-radix counting order with the last declared variable fastest (equal to
nested loops written in declaration order); the yields are pairwise distinct
provided each domain's values are pairwise distinct (a repeated domain value
repeats the corresponding assignments); len() of the Unroller equals the
product, computed eagerly at construction. -/
theorem c1_unroller_enumerates_product {α : Type} (loops : List (String × List α))
    (hne : ∀ p ∈ loops, p.2 ≠ []) :
    unroller loops = cartAssignments loops ∧
    (unroller loops).length = (loops.map (fun p => p.2.length)).prod ∧
    ((∀ p ∈ loops, p.2.Nodup) → (unroller loops).Nodup) ∧
    unrollerLen (mkUnroller loops) = (loops.map (fun p => p.2.length)).prod := by
  refine ⟨unroller_eq_cartAssignments loops, unroller_length loops,
    unroller_nodup loops, ?_⟩
  have h2 := hne
  rw [unrollerLen, mkUnroller, unrollerTotal_eq_prod, List.map_map]
  rfl

/-- Witness for C1 at a concrete sweep specification. -/
theorem c1_unroller_enumerates_product_witness :
    unroller [("x", [0, 1]), ("y", ([5, 6, 7] : List Nat))] =
        cartAssignments [("x", [0, 1]), ("y", [5, 6, 7])] ∧
    (unroller [("x", [0, 1]), ("y", ([5, 6, 7] : List Nat))]).length =
        ([("x", [0, 1]), ("y", ([5, 6, 7] : List Nat))].map (fun p => p.2.length)).prod ∧
    ((∀ p ∈ [("x", [0, 1]), ("y", ([5, 6, 7] : List Nat))], p.2.Nodup) →
      (unroller [("x", [0, 1]), ("y", ([5, 6, 7] : List Nat))]).Nodup) ∧
    unrollerLen (mkUnroller [("x", [0, 1]), ("y", ([5, 6, 7] : List Nat))]) =
        ([("x", [0, 1]), ("y", ([5, 6, 7] : List Nat))].map (fun p => p.2.length)).prod :=
  c1_unroller_enumerates_product [("x", [0, 1]), ("y", [5, 6, 7])] (by decide)

/-- C5 counterexample: a sweep specification with zero dimensions yields one
combination (the empty assignment), not zero, and its eagerly computed length
is 1 (the empty product), contradicting the claim that it yields zero
combinations. -/
theorem c5_zero_dims_yields_one :
    unroller ([] : List (String × List Nat)) = [[]] ∧
    (unroller ([] : List (String × List Nat))).length = 1 ∧
    unrollerLen (mkUnroller ([] : List (String × List Nat))) = 1 :=
  ⟨rfl, rfl, rfl⟩

/-- C5 (amended): a sweep specification with at least one zero-length domain
yields zero combinations — neither an error nor an infinite loop, since the
embedded generator terminates at once — while a sweep specification with zero
dimensions yields exactly one combination, the empty assignment. -/
theorem c5_empty_domain {α : Type} (loops : List (String × List α)) :
    ((∃ p ∈ loops, p.2 = []) → unroller loops = []) ∧
    (loops = [] → unroller loops = [[]]) := by
  constructor
  · intro hex
    obtain ⟨p, hp, hnil⟩ := hex
    rw [unroller, unrollVals_eq_cartProd, cartProd_of_mem_nil]
    · rfl
    · rw [← hnil]
      exact List.mem_map_of_mem Prod.snd hp
  · intro h
    subst h
    rfl

/-- Witness for C5 at concrete sweep specifications. -/
theorem c5_empty_domain_witness :
    unroller [("x", ([] : List Nat))] = [] ∧
    unroller ([] : List (String × List Nat)) = [[]] :=
  ⟨(c5_empty_domain [("x", ([] : List Nat))]).1 ⟨("x", []), by decide, rfl⟩,
   (c5_empty_domain ([] : List (String × List Nat))).2 rfl⟩

/-- C9: every traversal of the same Unroller instance begins fresh and yields
the identical sequence: k successive `__iter__` traversals all produce the
enumeration determined by `self.loops`, independent of the traversals
performed before, because each traversal re-acquires every domain's iteration
from scratch. -/
theorem c9_traversals_identical {α : Type} (u : Unroller α) (k : Nat) :
    unrollerTraversals u k = List.replicate k (unroller u.loops) := by
  induction k with
  | zero => rfl
  | succ n ih => simp [unrollerTraversals, unrollerIter, ih, List.replicate]

/-! ## phase.py and experiment.py — phases and the scheduler

A phase is modeled by its observable behaviors.  `needsrun` and
`is_allowed_to_run` either return a Bool or raise an exception.  `run`
(`Phase.run` calling the wrapped work) is modeled as a function of the number
of prior invocation attempts of that phase (capturing stateful phases such as
one that raises a dependency request only on its first attempt); one
invocation either completes, raises the `DependsOnAnotherPhase` control
signal naming a prerequisite, or raises an ordinary exception.  Per
`Phase.run`, the run counter `self.run_counter` is incremented only when the
wrapped work returns without raising.  The optional recording of a non-null
return value into the result store is orthogonal to every claim and is not
modeled. -/

/-- Result of one invocation of a phase's wrapped work. -/
inductive RunOutcome where
  | ok
  | dependsOn (name : String)
  | raiseE (e : PyExc)
deriving DecidableEq, Repr

/-- A registered phase: its name and its three behaviors. -/
structure Phase where
  name : String
  needsBeh : Except PyExc Bool
  allowBeh : Except PyExc Bool
  runBeh : Nat → RunOutcome

/-- Scheduler-visible mutable state, indexed by the position of each phase in
the scheduler's phase list: invocation attempts of each phase's run, the
`run_counter` of each phase (incremented on successful completion only, as in
`Phase.run`), and the order of successful completions. -/
structure SchedState where
  attempts : Nat → Nat
  counters : Nat → Nat
  trace : List Nat

/-- The state before any scheduling. -/
def initS : SchedState := ⟨fun _ => 0, fun _ => 0, []⟩

/-- Pointwise function update. -/
def updFn (f : Nat → Nat) (i x : Nat) : Nat → Nat :=
  fun j => if j = i then x else f j

/-- ASCII lower-casing of one character, as `str.lower()` acts on the ASCII
phase names in play. -/
def lowerChar (c : Char) : Char :=
  if 65 ≤ c.toNat ∧ c.toNat ≤ 90 then Char.ofNat (c.toNat + 32) else c

/-- Whitespace recognized by `str.strip()`. -/
def isSpaceChar (c : Char) : Bool :=
  c = ' ' || c = '\t' || c = '\n' || c = '\r'

/-- Name normalization used by `Experiment._find_phase`:
`name.lower().strip()`, implemented over the character list so that it
evaluates by kernel reduction. -/
def normName (s : String) : String :=
  ⟨(((s.data.map lowerChar).dropWhile isSpaceChar).reverse.dropWhile isSpaceChar).reverse⟩

/-- One comparison step of `_find_phase`: the phase matches the query if the
normalized names are equal, or the normalized phase name plus the suffix
`-phase` equals the normalized query. -/
def phaseMatches (p : Phase) (q : String) : Bool :=
  normName p.name == normName q || (normName p.name ++ "-phase") == normName q

/-- The search loop of `_find_phase`, returning the index of the first
matching registered phase. -/
def findPhaseAux : List Phase → String → Nat → Option Nat
  | [], _, _ => none
  | p :: ps, q, i => if phaseMatches p q then some i else findPhaseAux ps q (i + 1)

/-- `Experiment._find_phase` (string case): resolve a phase name,
case-insensitively, whitespace-stripped, with an optional `-phase` suffix, to
the first matching registered phase. -/
def findPhase (phases : List Phase) (q : String) : Option Nat :=
  findPhaseAux phases q 0

/-- Result of `run_a_phase`: the phase (and its prerequisites) completed, or
an ordinary exception escaped. -/
inductive RunRes where
  | success
  | exc (e : PyExc)
deriving DecidableEq, Repr

/-- The local recursive function `run_a_phase` of `Experiment.run`: invoke the
phase; on a `DependsOnAnotherPhase(q)` signal, resolve `q` with `_find_phase`
and run it recursively through `run_a_phase` itself — with no needsrun or
is_allowed_to_run check and no `force` involvement — then re-attempt the
original phase.  Python's recursion is unbounded; `fuel` bounds the depth,
and its exhaustion is modeled as the `RuntimeError` Python raises when the
recursion limit is hit.  A dependency name that resolves to no phase makes
`run_a_phase(None)` call `None(...)`, raising `TypeError`. -/
def runAPhase (phases : List Phase) : Nat → Nat → SchedState → SchedState × RunRes
  | 0, _, st => (st, RunRes.exc PyExc.recursionError)
  | fuel + 1, idx, st =>
    match phases[idx]? with
    | none => (st, RunRes.exc PyExc.typeError)
    | some P =>
      let a := st.attempts idx
      let st1 : SchedState := ⟨updFn st.attempts idx (a + 1), st.counters, st.trace⟩
      match P.runBeh a with
      | RunOutcome.ok =>
        (⟨st1.attempts, updFn st1.counters idx (st1.counters idx + 1),
          st1.trace ++ [idx]⟩, RunRes.success)
      | RunOutcome.raiseE e => (st1, RunRes.exc e)
      | RunOutcome.dependsOn q =>
        match findPhase phases q with
        | none => (st1, RunRes.exc PyExc.typeError)
        | some depIdx =>
          match runAPhase phases fuel depIdx st1 with
          | (st2, RunRes.success) => runAPhase phases fuel idx st2
          | (st2, RunRes.exc e) => (st2, RunRes.exc e)

/-- The `except KeyError / AttributeError / AssertionError` handlers around
`P.needsrun(...)` in `Experiment.run`: those three exception classes are
recovered locally as `needsrun = True`; any other exception keeps
propagating (to the surrounding `except BaseException`). -/
def needsrunCaught (b : Except PyExc Bool) : Except PyExc Bool :=
  match b with
  | Except.ok v => Except.ok v
  | Except.error PyExc.keyError => Except.ok true
  | Except.error PyExc.attributeError => Except.ok true
  | Except.error PyExc.assertionError => Except.ok true
  | Except.error e => Except.error e

/-- The `except KeyError` handler around `P.is_allowed_to_run(...)`: a
KeyError is recovered locally as `allowed = False`; any other exception keeps
propagating. -/
def allowedCaught (b : Except PyExc Bool) : Except PyExc Bool :=
  match b with
  | Except.ok v => Except.ok v
  | Except.error PyExc.keyError => Except.ok false
  | Except.error e => Except.error e

/-- The main `for phase in phases` loop of `Experiment.run`, over the
resolved indices of the requested phases.  Per phase: if `force`, predicate
checks are skipped (`needsrun = True`) but `is_allowed_to_run` is still
evaluated ("allowed" is stronger than "force"); an exception escaping a
predicate or `run_a_phase` is caught by the surrounding
`except BaseException`, logged, and either breaks the loop
(`stopOnException`) or lets it continue with the next requested phase. -/
def runLoop (phases : List Phase) (fuel : Nat) (stopOnException force : Bool) :
    List Nat → SchedState → SchedState
  | [], st => st
  | idx :: rest, st =>
    match phases[idx]? with
    | none => runLoop phases fuel stopOnException force rest st
    | some P =>
      match (if force then Except.ok true else needsrunCaught P.needsBeh : Except PyExc Bool) with
      | Except.error _ =>
        if stopOnException then st else runLoop phases fuel stopOnException force rest st
      | Except.ok needsrun =>
        match allowedCaught P.allowBeh with
        | Except.error _ =>
          if stopOnException then st else runLoop phases fuel stopOnException force rest st
        | Except.ok allowed =>
          if needsrun && allowed then
            match runAPhase phases fuel idx st with
            | (st2, RunRes.success) => runLoop phases fuel stopOnException force rest st2
            | (st2, RunRes.exc _) =>
              if stopOnException then st2
              else runLoop phases fuel stopOnException force rest st2
          else runLoop phases fuel stopOnException force rest st

/-- `Experiment.run`: validate every requested name against the registered
phases (an unresolved name raises `ValueError` before any phase executes),
then run the main loop, then — after the loop, even after a
stop-on-exception break — call `self.save()` unless `nosave`.  The returned
Bool records whether `save()` was invoked.  Since validation guarantees every
name resolves and the phase list is immutable during the loop, resolving the
names up front is equivalent to the per-iteration `_find_phase` call. -/
def expRun (phases : List Phase) (names : List String)
    (stopOnException force nosave : Bool) (fuel : Nat) (st : SchedState) :
    Except PyExc (SchedState × Bool) :=
  if names.all (fun n => (findPhase phases n).isSome) then
    Except.ok
      (runLoop phases fuel stopOnException force (names.filterMap (findPhase phases)) st,
       !nosave)
  else Except.error PyExc.valueError

/-- `Experiment.run` with the special selector `"all"`: the request expands to
`[str(p.name) for p in self.phases]`. -/
def expRunAll (phases : List Phase) (stopOnException force nosave : Bool)
    (fuel : Nat) (st : SchedState) : Except PyExc (SchedState × Bool) :=
  expRun phases (phases.map (fun p => p.name)) stopOnException force nosave fuel st

/-- Concrete phases for the dependency scenario of the spec: A and C always
complete; B raises `DependsOnAnotherPhase("A")` on its first invocation and
completes on every retry.  All predicates are the defaults (always True). -/
def phA : Phase := ⟨"A", Except.ok true, Except.ok true, fun _ => RunOutcome.ok⟩

/-- Phase B of the dependency scenario. -/
def phB : Phase := ⟨"B", Except.ok true, Except.ok true,
  fun a => if a == 0 then RunOutcome.dependsOn "A" else RunOutcome.ok⟩

/-- Phase C of the dependency scenario. -/
def phC : Phase := ⟨"C", Except.ok true, Except.ok true, fun _ => RunOutcome.ok⟩

/-- The registered phase list [A, B, C]. -/
def phasesABC : List Phase := [phA, phB, phC]

/-- C2 counterexample: with phases [A, B, C] where B raises
`DependsOnAnotherPhase("A")` on its first attempt, requesting `"all"` runs A
twice — once as a directly requested phase and once more as B's prerequisite,
because B (as stipulated) still raises on its first attempt — so A's run
counter ends at 2, not 1 as the claim states. -/
theorem c2_all_request_counter_two :
    (expRunAll phasesABC false false false 10 initS).map
        (fun o => (o.1.trace, o.1.counters 0, o.1.counters 1, o.1.counters 2)) =
      Except.ok ([0, 0, 1, 2], 2, 1, 1) := by
  rfl

/-- C2 (amended): requesting the list ["B"] alone causes A to run before B —
observed completion order [A, B] with both run counters 1 (B's counter is 1
because `Phase.run` increments only on a non-raising invocation).  Requesting
"all" yields completion order A, A, B, C: A runs once as a directly requested
phase and once more as B's prerequisite, since B still raises on its first
attempt, leaving A's counter at 2 and B's and C's at 1.  The prerequisite is
run by `run_a_phase` invoking the phase directly — without the
needsrun/is_allowed_to_run state machine and without implying `force` — and
then the original phase is re-attempted. -/
theorem c2_dependency_scenario :
    (expRun phasesABC ["B"] false false false 10 initS).map
        (fun o => (o.1.trace, o.1.counters 0, o.1.counters 1)) =
      Except.ok ([0, 1], 1, 1) ∧
    (expRunAll phasesABC false false false 10 initS).map
        (fun o => (o.1.trace, o.1.counters 0, o.1.counters 1, o.1.counters 2)) =
      Except.ok ([0, 0, 1, 2], 2, 1, 1) ∧
    (runAPhase phasesABC 10 1 initS).1.trace = [0, 1] := by
  exact ⟨rfl, rfl, rfl⟩

/-- `updFn` leaves other indices unchanged. -/
theorem updFn_ne (f : Nat → Nat) (j x i : Nat) (h : i ≠ j) : updFn f j x i = f i := by
  simp [updFn, h]

/-- `run_a_phase` never touches the run counter of a phase it is not asked to
run, directly or through dependency requests. -/
theorem runAPhase_counters_pres (phases : List Phase) (i : Nat)
    (hnodep : ∀ (j : Nat) (Q : Phase), phases[j]? = some Q →
      ∀ (n : Nat) (q : String), Q.runBeh n = RunOutcome.dependsOn q →
        findPhase phases q ≠ some i) :
    ∀ (fuel j : Nat) (st : SchedState), j ≠ i →
      (runAPhase phases fuel j st).1.counters i = st.counters i := by
  intro fuel
  induction fuel with
  | zero => intro j st _; rfl
  | succ fuel ih =>
    intro j st hji
    cases hQ : phases[j]? with
    | none => simp [runAPhase, hQ]
    | some Q =>
      cases hb : Q.runBeh (st.attempts j) with
      | ok =>
        simp only [runAPhase, hQ, hb]
        exact updFn_ne _ _ _ _ (fun h => hji h.symm)
      | raiseE e => simp [runAPhase, hQ, hb]
      | dependsOn q =>
        cases hf : findPhase phases q with
        | none => simp [runAPhase, hQ, hb, hf]
        | some depIdx =>
          have hdep : depIdx ≠ i := by
            intro h
            subst h
            exact hnodep j Q hQ (st.attempts j) q hb hf
          simp only [runAPhase, hQ, hb, hf]
          cases hrec : runAPhase phases fuel depIdx
              ⟨updFn st.attempts j (st.attempts j + 1), st.counters, st.trace⟩ with
          | mk st2 r =>
            have h2 : st2.counters i = st.counters i := by
              have hpres := ih depIdx
                ⟨updFn st.attempts j (st.attempts j + 1), st.counters, st.trace⟩ hdep
              rw [hrec] at hpres
              exact hpres
            cases r with
            | success =>
              simp only []
              rw [ih j st2 hji, h2]
            | exc e => exact h2

/-- C3 (amended): a phase whose `is_allowed_to_run` returns false is never run
as a directly requested phase — even when `needsrun` is true and even under
`force` — so, provided no phase names it in a `DependsOnAnotherPhase`
request, its run counter is unchanged by the whole scheduling pass; a
dependency request naming it would bypass this check (see the
counterexample). -/
theorem c3_forbidden_never_runs (phases : List Phase) (i : Nat) (P : Phase)
    (hP : phases[i]? = some P) (hallow : P.allowBeh = Except.ok false)
    (hnodep : ∀ (j : Nat) (Q : Phase), phases[j]? = some Q →
      ∀ (n : Nat) (q : String), Q.runBeh n = RunOutcome.dependsOn q →
        findPhase phases q ≠ some i) :
    ∀ (idxs : List Nat) (fuel : Nat) (stopOnException force : Bool) (st : SchedState),
      (runLoop phases fuel stopOnException force idxs st).counters i = st.counters i := by
  intro idxs
  induction idxs with
  | nil => intro fuel stop force st; rfl
  | cons idx rest ih =>
    intro fuel stop force st
    cases hQ : phases[idx]? with
    | none => simp only [runLoop, hQ]; exact ih fuel stop force st
    | some Q =>
      cases hn : (if force then Except.ok true else needsrunCaught Q.needsBeh :
          Except PyExc Bool) with
      | error e =>
        simp only [runLoop, hQ, hn]
        cases stop with
        | true => simp
        | false => simp; exact ih fuel false force st
      | ok needsrun =>
        cases ha : allowedCaught Q.allowBeh with
        | error e =>
          simp only [runLoop, hQ, hn, ha]
          cases stop with
          | true => simp
          | false => simp; exact ih fuel false force st
        | ok allowed =>
          by_cases hidx : idx = i
          · subst hidx
            have hQP : Q = P := by
              rw [hP] at hQ
              injection hQ with hinj
              exact hinj.symm
            have hfalse : allowed = false := by
              rw [hQP, hallow] at ha
              simp only [allowedCaught, Except.ok.injEq] at ha
              exact ha.symm
            subst hfalse
            simp only [runLoop, hQ, hn, ha, Bool.and_false]
            simp only [Bool.false_eq_true, if_false]
            exact ih fuel stop force st
          · simp only [runLoop, hQ, hn, ha]
            cases hba : needsrun && allowed with
            | false =>
              simp only [Bool.false_eq_true, if_false]
              exact ih fuel stop force st
            | true =>
              simp only [if_true]
              cases hrun : runAPhase phases fuel idx st with
              | mk st2 r =>
                have h2 : st2.counters i = st.counters i := by
                  have hpres := runAPhase_counters_pres phases i hnodep fuel idx st hidx
                  rw [hrun] at hpres
                  exact hpres
                cases r with
                | success => rw [ih fuel stop force st2, h2]
                | exc e =>
                  cases stop with
                  | true => simpa using h2
                  | false =>
                    simp only [Bool.false_eq_true, if_false]
                    rw [ih fuel false force st2, h2]

/-- A phase whose `is_allowed_to_run` always returns False. -/
def phAForb : Phase := ⟨"A", Except.ok true, Except.ok false, fun _ => RunOutcome.ok⟩

/-- C3 counterexample: phase A has `is_allowed_to_run` returning false, yet
requesting ["B"] — where B raises `DependsOnAnotherPhase("A")` — runs A
through `run_a_phase` with no allowed-check, leaving A's run counter at 1;
the claim said the counter stays unchanged whenever `is_allowed_to_run` is
false.  (Direct requests do honor the veto: requesting ["A"], even with
`force`, leaves the counter at 0.) -/
theorem c3_forbidden_phase_runs_as_prerequisite :
    (expRun [phAForb, phB] ["B"] false false false 10 initS).map
        (fun o => (o.1.counters 0, o.1.trace)) = Except.ok (1, [0, 1]) ∧
    (expRun [phAForb, phB] ["A"] false true false 10 initS).map
        (fun o => o.1.counters 0) = Except.ok 0 :=
  ⟨rfl, rfl⟩

/-- Witness for C3 at a concrete phase list without dependency requests. -/
theorem c3_forbidden_never_runs_witness :
    (runLoop [phAForb, phC] 5 false true [0, 1] initS).counters 0 = 0 := by
  exact c3_forbidden_never_runs [phAForb, phC] 0 phAForb rfl rfl
    (by
      intro j Q hj n q hq
      rcases j with _ | _ | j
      · simp only [List.getElem?_cons_zero, Option.some.injEq] at hj
        subst hj
        simp [phAForb] at hq
      · simp only [List.getElem?_cons_succ, List.getElem?_cons_zero,
          Option.some.injEq] at hj
        subst hj
        simp [phC] at hq
      · simp at hj)
    [0, 1] 5 false true initS

/-- A phase whose run always raises an ordinary exception. -/
def phF : Phase := ⟨"F", Except.ok true, Except.ok true,
  fun _ => RunOutcome.raiseE PyExc.valueError⟩

/-- A phase that always completes. -/
def phG : Phase := ⟨"G", Except.ok true, Except.ok true, fun _ => RunOutcome.ok⟩

/-- Another phase that always completes. -/
def phH : Phase := ⟨"H", Except.ok true, Except.ok true, fun _ => RunOutcome.ok⟩

/-- C4: when a requested phase's run raises an ordinary exception, the
surrounding `except BaseException` of `Experiment.run` catches it (the phase
is logged and classified as failed; its run counter is not incremented).
With stopOnException=True the loop breaks at once — the result is the state
of the failed attempt, independent of the remaining requested phases.  With
stopOnException=False the loop continues with every subsequent requested
phase.  In both cases `Experiment.run` returns normally and, unless `nosave`,
still calls `save()` after the loop. -/
theorem c4_exception_handling (phases : List Phase) (i : Nat) (P : Phase)
    (e : PyExc) (rest : List Nat) (st : SchedState) (fuel : Nat) (force : Bool)
    (hP : phases[i]? = some P)
    (hneeds : P.needsBeh = Except.ok true) (hallow : P.allowBeh = Except.ok true)
    (hrun : P.runBeh (st.attempts i) = RunOutcome.raiseE e) :
    (runLoop phases (fuel + 1) true force (i :: rest) st =
      ⟨updFn st.attempts i (st.attempts i + 1), st.counters, st.trace⟩) ∧
    (runLoop phases (fuel + 1) false force (i :: rest) st =
      runLoop phases (fuel + 1) false force rest
        ⟨updFn st.attempts i (st.attempts i + 1), st.counters, st.trace⟩) ∧
    (∀ (names : List String) (stopOnException nosave : Bool) (fl : Nat)
        (st2 : SchedState),
      names.all (fun n => (findPhase phases n).isSome) = true →
      expRun phases names stopOnException force nosave fl st2 =
        Except.ok
          (runLoop phases fl stopOnException force
            (names.filterMap (findPhase phases)) st2, !nosave)) := by
  refine ⟨?_, ?_, ?_⟩
  · cases force <;>
      simp [runLoop, hP, hneeds, hallow, needsrunCaught, allowedCaught,
        runAPhase, hrun]
  · cases force <;>
      simp [runLoop, hP, hneeds, hallow, needsrunCaught, allowedCaught,
        runAPhase, hrun]
  · intro names stop nosave fl st2 hv
    simp [expRun, hv]

/-- Witness for C4: phase F always raises; with stopOnException=False the
phases after F still run, with stopOnException=True they do not; in both
cases the pass returns normally and reports that `save()` was called. -/
theorem c4_exception_handling_witness :
    (runLoop [phF, phG, phH] 10 true false [0, 1, 2] initS =
      ⟨updFn initS.attempts 0 (initS.attempts 0 + 1), initS.counters, initS.trace⟩) ∧
    (runLoop [phF, phG, phH] 10 false false [0, 1, 2] initS =
      runLoop [phF, phG, phH] 10 false false [1, 2]
        ⟨updFn initS.attempts 0 (initS.attempts 0 + 1), initS.counters, initS.trace⟩) ∧
    (expRun [phF, phG, phH] ["F", "G", "H"] false false false 10 initS).map
        (fun o => (o.1.counters 0, o.1.counters 1, o.1.counters 2, o.1.trace, o.2)) =
      Except.ok (0, 1, 1, [1, 2], true) ∧
    (expRun [phF, phG, phH] ["F", "G", "H"] true false false 10 initS).map
        (fun o => (o.1.counters 0, o.1.counters 1, o.1.counters 2, o.1.trace, o.2)) =
      Except.ok (0, 0, 0, [], true) := by
  have h := c4_exception_handling [phF, phG, phH] 0 phF PyExc.valueError [1, 2]
    initS 9 false rfl rfl rfl rfl
  exact ⟨h.1, h.2.1, rfl, rfl⟩

/-- `needsrun` exceptions other than KeyError, AttributeError and
AssertionError are not recovered by the local handlers. -/
theorem needsrunCaught_error (e : PyExc) (h1 : e ≠ PyExc.keyError)
    (h2 : e ≠ PyExc.attributeError) (h3 : e ≠ PyExc.assertionError) :
    needsrunCaught (Except.error e) = Except.error e := by
  cases e <;>
    first
      | rfl
      | exact absurd rfl h1
      | exact absurd rfl h2
      | exact absurd rfl h3

/-- `is_allowed_to_run` exceptions other than KeyError are not recovered by
the local handler. -/
theorem allowedCaught_error (e : PyExc) (h1 : e ≠ PyExc.keyError) :
    allowedCaught (Except.error e) = Except.error e := by
  cases e <;> first | rfl | exact absurd rfl h1

/-- C6 (amended): an exception of type KeyError, AttributeError or
AssertionError inside `needsrun` is recovered locally as "needs to run" (the
phase then runs, when allowed); a KeyError inside `is_allowed_to_run` is
recovered locally as "not allowed" (the phase is skipped); an exception of
any other type inside either predicate falls through to the scheduler's
general `except BaseException` handler — logged, the phase is not run, and
with stopOnException the pass stops, otherwise it continues — and in every
case nothing propagates out of `Experiment.run` (it returns normally whenever
the requested names validate). -/
theorem c6_predicate_exception_classes (phases : List Phase) (i : Nat) (P : Phase)
    (rest : List Nat) (st : SchedState) (fuel : Nat)
    (hP : phases[i]? = some P) :
    (∀ e : PyExc,
      (e = PyExc.keyError ∨ e = PyExc.attributeError ∨ e = PyExc.assertionError) →
      P.needsBeh = Except.error e → P.allowBeh = Except.ok true →
      P.runBeh (st.attempts i) = RunOutcome.ok →
      ∀ stopOnException : Bool,
        runLoop phases (fuel + 1) stopOnException false (i :: rest) st =
          runLoop phases (fuel + 1) stopOnException false rest
            ⟨updFn st.attempts i (st.attempts i + 1),
             updFn st.counters i (st.counters i + 1), st.trace ++ [i]⟩) ∧
    (P.allowBeh = Except.error PyExc.keyError → P.needsBeh = Except.ok true →
      ∀ stopOnException : Bool,
        runLoop phases fuel stopOnException false (i :: rest) st =
          runLoop phases fuel stopOnException false rest st) ∧
    (∀ e : PyExc, e ≠ PyExc.keyError → e ≠ PyExc.attributeError →
      e ≠ PyExc.assertionError → P.needsBeh = Except.error e →
      runLoop phases fuel true false (i :: rest) st = st ∧
      runLoop phases fuel false false (i :: rest) st =
        runLoop phases fuel false false rest st) ∧
    (∀ e : PyExc, e ≠ PyExc.keyError → P.allowBeh = Except.error e →
      P.needsBeh = Except.ok true →
      runLoop phases fuel true false (i :: rest) st = st ∧
      runLoop phases fuel false false (i :: rest) st =
        runLoop phases fuel false false rest st) ∧
    (∀ (names : List String) (stopOnException force nosave : Bool) (fl : Nat)
        (st2 : SchedState),
      names.all (fun n => (findPhase phases n).isSome) = true →
      ∃ out, expRun phases names stopOnException force nosave fl st2 =
        Except.ok out) := by
  refine ⟨?_, ?_, ?_, ?_, ?_⟩
  · intro e he hneeds hallow hrun stop
    have hcaught : needsrunCaught P.needsBeh = Except.ok true := by
      rw [hneeds]
      rcases he with h | h | h <;> subst h <;> rfl
    simp [runLoop, hP, hcaught, hallow, allowedCaught, runAPhase, hrun]
  · intro hallow hneeds stop
    simp [runLoop, hP, hneeds, needsrunCaught, hallow, allowedCaught]
  · intro e h1 h2 h3 hneeds
    have hcaught : needsrunCaught P.needsBeh = Except.error e := by
      rw [hneeds]; exact needsrunCaught_error e h1 h2 h3
    constructor <;> simp [runLoop, hP, hcaught]
  · intro e h1 hallow hneeds
    have hcaught : allowedCaught P.allowBeh = Except.error e := by
      rw [hallow]; exact allowedCaught_error e h1
    constructor <;> simp [runLoop, hP, hneeds, needsrunCaught, hcaught]
  · intro names stop force nosave fl st2 hv
    refine ⟨(runLoop phases fl stop force (names.filterMap (findPhase phases)) st2,
      !nosave), ?_⟩
    simp [expRun, hv]

/-- A phase whose `needsrun` raises ValueError. -/
def phNeedsVE : Phase := ⟨"P", Except.error PyExc.valueError, Except.ok true,
  fun _ => RunOutcome.ok⟩

/-- A phase whose `needsrun` raises KeyError. -/
def phNeedsKE : Phase := ⟨"P", Except.error PyExc.keyError, Except.ok true,
  fun _ => RunOutcome.ok⟩

/-- C6 counterexample: a ValueError raised inside `needsrun` is NOT treated as
"needs to run": the phase's run is never invoked (counter 0, empty trace),
whereas the claim implies it would run (as it does when `needsrun` raises
KeyError, shown for contrast).  The exception still does not propagate. -/
theorem c6_valueerror_not_treated_as_needsrun :
    (expRun [phNeedsVE] ["P"] false false false 5 initS).map
        (fun o => (o.1.counters 0, o.1.trace)) = Except.ok (0, []) ∧
    (expRun [phNeedsKE] ["P"] false false false 5 initS).map
        (fun o => (o.1.counters 0, o.1.trace)) = Except.ok (1, [0]) :=
  ⟨rfl, rfl⟩

/-- Witness for C6 at concrete phases: a KeyError in `needsrun` leads to the
phase running; a ValueError in `needsrun` leads to a skipped phase with the
pass stopping (stopOnException) or continuing. -/
theorem c6_predicate_exception_classes_witness :
    (runLoop [phNeedsKE] 5 false false [0] initS =
      runLoop [phNeedsKE] 5 false false []
        ⟨updFn initS.attempts 0 (initS.attempts 0 + 1),
         updFn initS.counters 0 (initS.counters 0 + 1), initS.trace ++ [0]⟩) ∧
    (runLoop [phNeedsVE] 4 true false [0] initS = initS) := by
  constructor
  · exact (c6_predicate_exception_classes [phNeedsKE] 0 phNeedsKE [] initS 4 rfl).1
      PyExc.keyError (Or.inl rfl) rfl rfl rfl false
  · exact ((c6_predicate_exception_classes [phNeedsVE] 0 phNeedsVE [] initS 4 rfl).2.2.1
      PyExc.valueError (by simp) (by simp) (by simp) rfl).1

/-! ## experiment.py — Experiment.save, per-key serialization

The checkpoint loop of `Experiment.save` iterates the result store and
writes each value into the shelve; the relevant aspect of a value is whether
the write raises, and which exception class it raises. -/

/-- A result-store value as seen by the checkpoint loop: `serFail = none`
means `res[k] = v` succeeds; `serFail = some e` means it raises `e`. -/
structure PVal where
  serFail : Option PyExc
deriving DecidableEq, Repr

/-- The exception classes caught per key by `Experiment.save`:
`except TypeError`, `except RuntimeError`, `except pickle.PicklingError`. -/
def serCaught : PyExc → Bool
  | PyExc.typeError => true
  | PyExc.runtimeError => true
  | PyExc.picklingError => true
  | _ => false

/-- The `for k,v in self.result.items()` loop of `Experiment.save`: write
each value; a caught serialization failure is logged and only that key is
skipped; any other exception propagates out of the loop (aborting the
remaining writes — the `with closing(...)` still closes the shelve).
Returns the keys actually written. -/
def saveItems : List (String × PVal) → Except PyExc (List String)
  | [] => Except.ok []
  | (k, v) :: rest =>
    match v.serFail with
    | none => (saveItems rest).map (fun ks => k :: ks)
    | some e => if serCaught e then saveItems rest else Except.error e

/-- C7 counterexample: a value whose serialization raises ValueError (an
exception class outside TypeError/RuntimeError/PicklingError, e.g. raised by
a value's own `__getstate__`) aborts the checkpoint loop: the later key "b"
is never written and the exception propagates, contradicting the claim that
every serialization failure is caught and only its key skipped. -/
theorem c7_uncaught_serialization_exception :
    saveItems [("a", ⟨some PyExc.valueError⟩), ("b", ⟨none⟩)] =
      Except.error PyExc.valueError :=
  rfl

/-- C7 (amended): for every key whose value fails to serialize with a
TypeError, RuntimeError or pickle.PicklingError, the failure is caught and
logged and only that key is skipped, and every other key is still written —
when all serialization failures in the store are of those caught classes,
the checkpoint completes normally with exactly the serializable keys
written; a failure of any other exception class propagates and aborts the
remaining writes. -/
theorem c7_caught_failures_skipped (items : List (String × PVal))
    (h : ∀ it ∈ items, ∀ e : PyExc, it.2.serFail = some e → serCaught e = true) :
    saveItems items =
      Except.ok ((items.filter (fun it => it.2.serFail.isNone)).map Prod.fst) := by
  induction items with
  | nil => rfl
  | cons it rest ih =>
    obtain ⟨k, v⟩ := it
    have hrest : saveItems rest =
        Except.ok ((rest.filter (fun it => it.2.serFail.isNone)).map Prod.fst) :=
      ih (fun it2 h2 e he => h it2 (List.mem_cons_of_mem _ h2) e he)
    cases hv : v.serFail with
    | none => simp [saveItems, hv, hrest, List.filter, Except.map]
    | some e =>
      have hc : serCaught e = true := h (k, v) (List.mem_cons_self _ _) e hv
      simp [saveItems, hv, hc, hrest, List.filter]

/-- Witness for C7 at a concrete store: the TypeError-failing key is skipped,
the others are written, nothing propagates. -/
theorem c7_caught_failures_skipped_witness :
    saveItems [("a", ⟨none⟩), ("bad", ⟨some PyExc.typeError⟩), ("b", ⟨none⟩)] =
      Except.ok ["a", "b"] := by
  have h := c7_caught_failures_skipped
    [("a", ⟨none⟩), ("bad", ⟨some PyExc.typeError⟩), ("b", ⟨none⟩)] (by decide)
  simpa using h

/-! ## phase.py — Phase.__init__ name check -/

/-- The reserved-name check of `Phase.__init__`:
`if self.name in ('all', 'All', 'ALL'): raise ValueError(...)`. -/
def phaseNameCheck (name : String) : Except PyExc Unit :=
  if name = "all" ∨ name = "All" ∨ name = "ALL" then Except.error PyExc.valueError
  else Except.ok ()

/-- C8 counterexample: constructing a phase named "aLl" succeeds — the
membership test `name in ('all', 'All', 'ALL')` only rejects those three
exact spellings, so the rejection is not case-insensitive as claimed. -/
theorem c8_mixed_case_all_accepted :
    phaseNameCheck "aLl" = Except.ok () ∧ phaseNameCheck "ALl" = Except.ok () := by
  constructor <;> rfl

/-- C8 (amended): constructing a Phase fails at construction time with a
ValueError exactly when its name is one of the three spellings "all", "All",
"ALL"; every other name — including other casings such as "aLl" — is
accepted. -/
theorem c8_reserved_name_exact_casings (name : String) :
    (phaseNameCheck name = Except.error PyExc.valueError ↔
      (name = "all" ∨ name = "All" ∨ name = "ALL")) ∧
    phaseNameCheck "all" = Except.error PyExc.valueError ∧
    phaseNameCheck "All" = Except.error PyExc.valueError ∧
    phaseNameCheck "ALL" = Except.error PyExc.valueError := by
  refine ⟨?_, rfl, rfl, rfl⟩
  constructor
  · intro h
    by_contra hne
    rw [phaseNameCheck, if_neg hne] at h
    exact Except.noConfusion h
  · intro h
    rw [phaseNameCheck, if_pos h]

/-! ## config.py — the Config mapping

`Config` subclasses `collections.OrderedDict`.  Items live in the ordered
dict storage (`entries`); attributes set through the underscore escape hatch
live in the instance `__dict__` (`objAttrs`); the private flag
`__allow_underscore_attributes` (name-mangled) is set to False at the end of
`__init__` and is modeled as a Bool field.  Python attribute lookup finds
instance `__dict__` entries and class attributes (the OrderedDict methods)
before `__getattr__` is consulted. -/

/-- `startswith`, computed over the character lists so it reduces in the
kernel. -/
def strStartsWith (s pre : String) : Bool := pre.data.isPrefixOf s.data

/-- `endswith`, computed over the character lists. -/
def strEndsWith (s suf : String) : Bool := suf.data.reverse.isPrefixOf s.data.reverse

/-- The non-underscore attributes of a Python 2 `collections.OrderedDict`
instance, as found by `hasattr` and by normal attribute lookup before
`__getattr__` is consulted. -/
def builtinAttrs : List String :=
  ["clear", "copy", "fromkeys", "get", "has_key", "items", "iteritems",
   "iterkeys", "itervalues", "keys", "pop", "popitem", "setdefault",
   "update", "values", "viewitems", "viewkeys", "viewvalues"]

/-- A `Config` object: the ordered dict contents, the instance `__dict__`
attributes created through the underscore escape hatch, and the
`__allow_underscore_attributes` flag (False after `__init__`). -/
structure ConfigM (V : Type) where
  entries : List (String × V)
  objAttrs : List (String × V)
  allowUnderscore : Bool
deriving DecidableEq, Repr

/-- The state of a freshly constructed `Config()`. -/
def emptyConfig (V : Type) : ConfigM V := ⟨[], [], false⟩

/-- Ordered-dict item assignment: an existing key is updated in place
(insertion order kept), a new key is appended. -/
def odSet {V : Type} : List (String × V) → String → V → List (String × V)
  | [], n, v => [(n, v)]
  | (k, w) :: rest, n, v =>
    if k = n then (k, v) :: rest else (k, w) :: odSet rest n v

/-- Result of reading an attribute `c.n`. -/
inductive GetRes (V : Type) where
  | val (v : V)
  | builtin
  | instAttr (v : V)
  | attrError
deriving DecidableEq, Repr

/-- `hasattr(self, n)`: attribute lookup succeeds through the instance
`__dict__`, the class attributes, or `Config.__getattr__` (dict items). -/
def cfgHasattr {V : Type} (c : ConfigM V) (n : String) : Bool :=
  (c.objAttrs.lookup n).isSome || builtinAttrs.contains n ||
    (c.entries.lookup n).isSome

/-- `Config.__setattr__`: a name not starting with "_" is stored as a dict
item, unless it would be shadowed by an existing (non-item) attribute — then
a UserWarning is raised; a name ending in `__allow_underscore_attributes`
(the name-mangled private flag) is always set as a real attribute; other
underscore names are set as real attributes only while
`__allow_underscore_attributes` is true, and otherwise raise ValueError. -/
def cfgSetattr {V : Type} (c : ConfigM V) (n : String) (v : V) :
    Except PyExc (ConfigM V) :=
  if !(strStartsWith n "_") then
    if cfgHasattr c n && !(c.entries.lookup n).isSome then
      Except.error PyExc.userWarning
    else Except.ok ⟨odSet c.entries n v, c.objAttrs, c.allowUnderscore⟩
  else if strEndsWith n "__allow_underscore_attributes" then
    Except.ok ⟨c.entries, odSet c.objAttrs n v, c.allowUnderscore⟩
  else if c.allowUnderscore then
    Except.ok ⟨c.entries, odSet c.objAttrs n v, c.allowUnderscore⟩
  else Except.error PyExc.valueError

/-- Reading the attribute `c.n`: Python looks at the instance `__dict__`,
then at the class attributes (the OrderedDict methods), and only as a last
resort calls `Config.__getattr__`, which returns the dict item or raises
AttributeError. -/
def cfgGetattr {V : Type} (c : ConfigM V) (n : String) : GetRes V :=
  match c.objAttrs.lookup n with
  | some v => GetRes.instAttr v
  | none =>
    if builtinAttrs.contains n then GetRes.builtin
    else
      match c.entries.lookup n with
      | some v => GetRes.val v
      | none => GetRes.attrError

/-- Item assignment `c[n] = v`: the plain OrderedDict `__setitem__`, with no
restriction on the key. -/
def cfgSetitem {V : Type} (c : ConfigM V) (n : String) (v : V) : ConfigM V :=
  ⟨odSet c.entries n v, c.objAttrs, c.allowUnderscore⟩

/-- Item access `c[n]`: the plain OrderedDict `__getitem__` (None models the
KeyError). -/
def cfgGetitem {V : Type} (c : ConfigM V) (n : String) : Option V :=
  c.entries.lookup n

/-- Setting a key stores it retrievably. -/
theorem odSet_lookup_self {V : Type} :
    ∀ (l : List (String × V)) (n : String) (v : V), (odSet l n v).lookup n = some v := by
  intro l
  induction l with
  | nil => intro n v; simp [odSet, List.lookup]
  | cons p rest ih =>
    intro n v
    obtain ⟨k, w⟩ := p
    by_cases hk : k = n
    · subst hk
      simp [odSet, List.lookup]
    · simp only [odSet, if_neg hk, List.lookup]
      have hbeq : (n == k) = false := by
        simp only [beq_eq_false_iff_ne, ne_eq]
        exact fun h => hk h.symm
      simp [hbeq, ih]

/-- C10 counterexample: for the key "items" — a string key not starting with
an underscore — attribute and item access are NOT interchangeable, because
"items" is an OrderedDict method: after `c["items"] = 123` the item reads
back but `c.items` is the bound method, not 123; `c.items = 5` raises
UserWarning instead of storing; reading `c.items` on an empty Config does
not raise AttributeError; and setting the underscore attribute
`_x__allow_underscore_attributes` does not raise ValueError (the
`endswith("__allow_underscore_attributes")` escape hatch). -/
theorem c10_builtin_shadowing :
    cfgGetitem (cfgSetitem (emptyConfig Nat) "items" 123) "items" = some 123 ∧
    cfgGetattr (cfgSetitem (emptyConfig Nat) "items" 123) "items" =
      GetRes.builtin ∧
    cfgSetattr (emptyConfig Nat) "items" 5 = Except.error PyExc.userWarning ∧
    cfgGetattr (emptyConfig Nat) "items" = GetRes.builtin ∧
    cfgSetattr (emptyConfig Nat) "_x__allow_underscore_attributes" 7 =
      Except.ok ⟨[], [("_x__allow_underscore_attributes", 7)], false⟩ := by
  exact ⟨rfl, rfl, rfl, rfl, rfl⟩

/-- C10 (amended): for every string key that does not start with an
underscore, is not an attribute of the underlying OrderedDict class, and is
not an escape-hatch instance attribute, attribute and item access are
interchangeable: setting through either interface makes both reads return
the value; reading such an attribute when it is not a stored key raises
AttributeError; setting an attribute whose name starts with "_" raises
ValueError unless the name ends with `__allow_underscore_attributes` or
underscore attributes were explicitly allowed; and any name, underscore or
builtin-colliding included, works as a dict key. -/
theorem c10_attr_item_interchange {V : Type} (c : ConfigM V) (n : String) (v : V)
    (hs : strStartsWith n "_" = false)
    (hb : builtinAttrs.contains n = false)
    (ho : c.objAttrs.lookup n = none) :
    cfgSetattr c n v = Except.ok (cfgSetitem c n v) ∧
    cfgGetattr (cfgSetitem c n v) n = GetRes.val v ∧
    cfgGetitem (cfgSetitem c n v) n = some v ∧
    (c.entries.lookup n = none → cfgGetattr c n = GetRes.attrError) ∧
    (∀ (m : String) (w : V), strStartsWith m "_" = true →
      strEndsWith m "__allow_underscore_attributes" = false →
      c.allowUnderscore = false →
      cfgSetattr c m w = Except.error PyExc.valueError) ∧
    (∀ (m : String) (w : V), cfgGetitem (cfgSetitem c m w) m = some w) := by
  have hbm : n ∉ builtinAttrs := by simpa using hb
  refine ⟨?_, ?_, ?_, ?_, ?_, ?_⟩
  · simp only [cfgSetattr, hs, Bool.not_false, if_true]
    have hcond : (cfgHasattr c n && !(c.entries.lookup n).isSome) = false := by
      cases hent : c.entries.lookup n <;> simp [cfgHasattr, hb, ho, hent, hbm]
    rw [hcond]
    simp [cfgSetitem]
  · simp [cfgGetattr, cfgSetitem, ho, hb, hbm, odSet_lookup_self]
  · simp [cfgGetitem, cfgSetitem, odSet_lookup_self]
  · intro hent
    simp [cfgGetattr, ho, hb, hbm, hent]
  · intro m w hm hme hflag
    simp [cfgSetattr, hm, hme, hflag]
  · intro m w
    simp [cfgGetitem, cfgSetitem, odSet_lookup_self]

/-- Witness for C10 at a concrete configuration and key. -/
theorem c10_attr_item_interchange_witness :
    cfgSetattr (emptyConfig Nat) "spam" 1 =
      Except.ok (cfgSetitem (emptyConfig Nat) "spam" 1) ∧
    cfgGetattr (cfgSetitem (emptyConfig Nat) "spam" 1) "spam" = GetRes.val 1 ∧
    cfgGetitem (cfgSetitem (emptyConfig Nat) "spam" 1) "spam" = some 1 ∧
    ((emptyConfig Nat).entries.lookup "spam" = none →
      cfgGetattr (emptyConfig Nat) "spam" = GetRes.attrError) ∧
    (∀ (m : String) (w : Nat), strStartsWith m "_" = true →
      strEndsWith m "__allow_underscore_attributes" = false →
      (emptyConfig Nat).allowUnderscore = false →
      cfgSetattr (emptyConfig Nat) m w = Except.error PyExc.valueError) ∧
    (∀ (m : String) (w : Nat),
      cfgGetitem (cfgSetitem (emptyConfig Nat) m w) m = some w) := by
  exact c10_attr_item_interchange (emptyConfig Nat) "spam" 1 rfl rfl rfl
